import Mathlib

/-!
Shallow embedding of `src/sacn_rsi.py` (Binance USDT futures RSI monitor).

Modelling conventions:
* Prices and RSI values are rationals (`ℚ`); IEEE NaN is modelled by `none`
  in `Option ℚ`, and the script's strict float comparisons are modelled by
  `fgt` / `flt`, which are `false` on `none`, matching IEEE comparison
  semantics for NaN.
* Timestamps are integers (minutes); the script formats timestamps with
  minute resolution (`%Y-%m-%d %H:%M`).  The run reads the clock once in the
  model (`now`); the retention cutoff is `now - DAYS_TO_KEEP` days, as in
  `filter_last_n_days`.
* The pandas table of records is a `List HistRec`; `sort_values` (on the
  timestamp column, descending) is modelled by insertion sort on `tsGe`,
  `drop_duplicates(subset=["Symbol"], keep="first")` by `dropDupBySymbol`.
* Network results are explicit inputs: the exchange-info response is an
  `Option (List SymbolInfo)` (`none` = request/parsing failure, caught and
  turned into `[]` by `get_usdt_futures`); per-symbol klines are a function
  `fetch : String → List ℚ` (`get_klines` returns `[]` on failure).
* The Timestamp column mixes cell types: rows loaded from the CSV were
  parsed by `pd.to_datetime` (datetime cells), while rows appended this run
  store `now.strftime("%Y-%m-%d %H:%M")` (string cells).  A `PyRow` tags
  each record with `tsIsStr`.  Sorting such a column succeeds (pandas
  `Timestamp` comparisons parse strings, and the fixed-width format orders
  strings chronologically), so `sort_values`/`drop_duplicates` stay total;
  but `filter_last_n_days` compares cells against a `datetime.datetime`
  cutoff, and `str >= datetime` raises an uncaught `TypeError` — pandas
  object-dtype ordering comparisons have no fallback.  The model's
  `filter_last_n_days` therefore returns `Except`, raising exactly when a
  string-stamped row is present in a nonempty table.
* File writes are the result value of `runMain`:
  `Except.ok none` means the run returned early (empty discovery) and wrote
  nothing; `Except.ok (some (history, alerts))` are the contents written to
  the history CSV and the alerts CSV; `Except.error e` means the run died
  with an uncaught exception before any write.
-/

/-- Configuration constant `RSI_PERIOD = 14` of the script. -/
def RSI_PERIOD : Nat := 14

/-- Configuration constant `OVERBOUGHT = 70` of the script. -/
def OVERBOUGHT : ℚ := 70

/-- Configuration constant `OVERSOLD = 30` of the script. -/
def OVERSOLD : ℚ := 30

/-- Configuration constant `DAYS_TO_KEEP = 7` of the script. -/
def DAYS_TO_KEEP : Nat := 7

/-- The retention window of `DAYS_TO_KEEP` days, in minutes (the timestamp
resolution used by the script). -/
def retentionMinutes : ℤ := (DAYS_TO_KEEP : ℤ) * 24 * 60

/-- One row of the history table: schema `Symbol, RSI, Signal, Timestamp`
(see `load_history` and the rows appended in `main`). -/
structure HistRec where
  symbol : String
  rsi : ℚ
  signal : String
  ts : ℤ
deriving DecidableEq, Repr

/-- One entry of the exchange-info response: the two fields of
`response["symbols"]` that `get_usdt_futures` reads. -/
structure SymbolInfo where
  symbol : String
  status : String
deriving DecidableEq, Repr

/-- Python `str.endswith`, on the character sequences of the strings. -/
def strEndsWith (s suffix : String) : Bool := suffix.data.isSuffixOf s.data

/-- Python string comparison: lexicographic on the code-point sequences
(the same order as Lean's `String` order, by `String.le_iff_toList_le`). -/
def pyLe (a b : String) : Prop := a.data ≤ b.data

instance : DecidableRel pyLe := fun a b => inferInstanceAs (Decidable (a.data ≤ b.data))

instance : IsTotal String pyLe := ⟨fun a b => le_total a.data b.data⟩

instance : IsTrans String pyLe := ⟨fun _ _ _ hab hbc => le_trans hab hbc⟩

/-- `get_usdt_futures`: keep symbols ending in `"USDT"` whose status is
`"TRADING"`, return them sorted (Python `sorted`, ascending); any
network/parsing failure (modelled by input `none`) is caught and yields
`[]`. -/
def get_usdt_futures (response : Option (List SymbolInfo)) : List String :=
  match response with
  | none => []
  | some syms =>
      List.insertionSort pyLe
        ((syms.filter fun s => strEndsWith s.symbol "USDT" && s.status == "TRADING").map
          fun s => s.symbol)

/-- `load_history`: `none` = file absent (new empty table), `some (.error e)`
= file present but unreadable/corrupt (caught, empty table), `some (.ok df)`
= parsed table.  The `HistRec` type carries the schema
`Symbol, RSI, Signal, Timestamp`. -/
def load_history (file : Option (Except String (List HistRec))) : List HistRec :=
  match file with
  | none => []
  | some (Except.error _) => []
  | some (Except.ok df) => df

/-- Sum of the positive price changes (gains) of consecutive closes,
starting from `prev`. -/
def sumGains (prev : ℚ) : List ℚ → ℚ
  | [] => 0
  | c :: cs => max (c - prev) 0 + sumGains c cs

/-- Sum of the negative price changes (losses, as positive numbers) of
consecutive closes, starting from `prev`. -/
def sumLosses (prev : ℚ) : List ℚ → ℚ
  | [] => 0
  | c :: cs => max (prev - c) 0 + sumLosses c cs

/-- RSI from an average gain and an average loss:
`100 * avgGain / (avgGain + avgLoss)`, and `0` when both averages are `0`
(TA-Lib's guard against division by zero). -/
def rsiVal (aG aL : ℚ) : ℚ := if aG + aL = 0 then 0 else 100 * aG / (aG + aL)

/-- Wilder smoothing stage of TA-Lib's RSI: each new close updates the
average gain/loss with weight `(p-1)/p` and emits one defined RSI value. -/
def rsiSmooth (p : Nat) (prev aG aL : ℚ) : List ℚ → List (Option ℚ)
  | [] => []
  | c :: cs =>
      let aG2 := (aG * ((p : ℚ) - 1) + max (c - prev) 0) / (p : ℚ)
      let aL2 := (aL * ((p : ℚ) - 1) + max (prev - c) 0) / (p : ℚ)
      some (rsiVal aG2 aL2) :: rsiSmooth p c aG2 aL2 cs

/-- Model of `talib.RSI(closes, timeperiod=p)`: the first `p` outputs are
NaN (`none`); output `p` uses the simple average of the first `p` changes;
later outputs use Wilder smoothing.  The output has the same length as the
input. -/
def talibRSI (p : Nat) (closes : List ℚ) : List (Option ℚ) :=
  match closes with
  | [] => []
  | c0 :: rest =>
      if rest.length < p then List.replicate (rest.length + 1) none
      else
        let firstP := rest.take p
        let aG := sumGains c0 firstP / (p : ℚ)
        let aL := sumLosses c0 firstP / (p : ℚ)
        List.replicate p none ++
          some (rsiVal aG aL) :: rsiSmooth p (firstP.getLastD c0) aG aL (rest.drop p)

/-- `rsi_values[-1]`: the last RSI output (`none` both for NaN and for an
empty input, which the length guard in `main` rules out). -/
def currentRSI (p : Nat) (closes : List ℚ) : Option ℚ :=
  (talibRSI p closes).getLastD none

/-- Float `>` against a threshold: `false` on NaN (`none`), as in IEEE
arithmetic and hence in `current_rsi > OVERBOUGHT`. -/
def fgt (x : Option ℚ) (t : ℚ) : Bool :=
  match x with
  | none => false
  | some v => decide (t < v)

/-- Float `<` against a threshold: `false` on NaN (`none`), as in IEEE
arithmetic and hence in `current_rsi < OVERSOLD`. -/
def flt (x : Option ℚ) (t : ℚ) : Bool :=
  match x with
  | none => false
  | some v => decide (v < t)

/-- Python `round(x, 2)` on the model's exact rationals: round `100 x` to an
integer and divide by `100`. -/
def roundTo2 (x : ℚ) : ℚ := ((round (x * 100) : ℤ) : ℚ) / 100

/-- The body of the per-symbol loop in `main` (lines 113–129): skip when
fewer than `RSI_PERIOD` closes are available, otherwise compute the current
RSI and append a record exactly when `current_rsi > OVERBOUGHT or
current_rsi < OVERSOLD`, with signal `"超买"` when overbought and `"超卖"`
otherwise, RSI rounded to two decimals and timestamp `now`. -/
def scanOne (now : ℤ) (symbol : String) (closes : List ℚ) : Option HistRec :=
  if closes.length < RSI_PERIOD then none
  else
    let cur := currentRSI RSI_PERIOD closes
    if fgt cur OVERBOUGHT || flt cur OVERSOLD then
      some { symbol := symbol
             rsi := roundTo2 (cur.getD 0)
             signal := if fgt cur OVERBOUGHT then "超买" else "超卖"
             ts := now }
    else none

/-- The `for symbol in symbols` loop with its `try/except`: an exception in
the body (`Except.error`) is caught and the loop continues with the next
symbol; a body that emits no record (`Except.ok none`) also just continues. -/
def scanLoop (body : String → Except String (Option HistRec)) : List String → List HistRec
  | [] => []
  | s :: rest =>
      match body s with
      | Except.error _ => scanLoop body rest
      | Except.ok none => scanLoop body rest
      | Except.ok (some r) => r :: scanLoop body rest

/-- The concrete loop body of the script: fetch klines and run `scanOne`;
the pure model never raises. -/
def scanBody (now : ℤ) (fetch : String → List ℚ) (s : String) :
    Except String (Option HistRec) :=
  Except.ok (scanOne now s (fetch s))

/-- All new records collected by the scan loop of `main`. -/
def scanSymbols (now : ℤ) (fetch : String → List ℚ) (symbols : List String) :
    List HistRec :=
  scanLoop (scanBody now fetch) symbols

/-- Descending-timestamp order used by
`sort_values("Timestamp", ascending=False)`. -/
def tsGe (a b : HistRec) : Prop := b.ts ≤ a.ts

instance : DecidableRel tsGe := fun a b => inferInstanceAs (Decidable (b.ts ≤ a.ts))

instance : IsTotal HistRec tsGe := ⟨fun a b => le_total b.ts a.ts⟩

instance : IsTrans HistRec tsGe := ⟨fun _ _ _ hab hbc => le_trans hbc hab⟩

/-- The table sorted by timestamp, descending. -/
def sortDesc (l : List HistRec) : List HistRec := List.insertionSort tsGe l

/-- `drop_duplicates(subset=["Symbol"], keep="first")`: keep the first
occurrence of each symbol, in order; `seen` accumulates the symbols already
kept. -/
def dropDupAux (seen : List String) : List HistRec → List HistRec
  | [] => []
  | r :: rs =>
      if r.symbol ∈ seen then dropDupAux seen rs
      else r :: dropDupAux (r.symbol :: seen) rs

/-- `drop_duplicates` on the symbol column, keeping first occurrences. -/
def dropDupBySymbol (l : List HistRec) : List HistRec := dropDupAux [] l

/-- Step 6 of `main`: sort by timestamp descending, then keep the first
(most recent) record of each symbol. -/
def dedupHistory (l : List HistRec) : List HistRec := dropDupBySymbol (sortDesc l)

/-- A row of the in-memory pandas table together with the representation of
its Timestamp cell: `tsIsStr = true` for rows appended this run (the cell
is the `strftime` string), `false` for rows loaded from the CSV (the cell
was parsed to a datetime by `load_history`). -/
structure PyRow where
  record : HistRec
  tsIsStr : Bool
deriving DecidableEq, Repr

/-- The descending-timestamp order on rows; pandas sorts the mixed column
without error because `Timestamp`-vs-`str` comparisons parse the string and
the fixed-width `strftime` format orders strings chronologically. -/
def tsGeP (a b : PyRow) : Prop := b.record.ts ≤ a.record.ts

instance : DecidableRel tsGeP := fun a b => inferInstanceAs (Decidable (b.record.ts ≤ a.record.ts))

/-- `sort_values("Timestamp", ascending=False)` on the merged table. -/
def sortDescP (l : List PyRow) : List PyRow := List.insertionSort tsGeP l

/-- `drop_duplicates(subset=["Symbol"], keep="first")` on the merged
table. -/
def dropDupAuxP (seen : List String) : List PyRow → List PyRow
  | [] => []
  | r :: rs =>
      if r.record.symbol ∈ seen then dropDupAuxP seen rs
      else r :: dropDupAuxP (r.record.symbol :: seen) rs

/-- Step 6 of `main` on the merged table of tagged rows. -/
def dedupPy (l : List PyRow) : List PyRow := dropDupAuxP [] (sortDescP l)

/-- The uncaught exception pandas raises when an ordering comparison meets
a string cell and a `datetime.datetime` scalar. -/
def pruneTypeError : String :=
  "TypeError: >= not supported between instances of str and datetime.datetime"

/-- `filter_last_n_days`: an empty table is returned unchanged; otherwise
`df["Timestamp"] >= cutoff` is evaluated element-wise, raising `TypeError`
as soon as a string-stamped row is compared with the datetime cutoff
(object-dtype ordering comparisons have no error fallback); with only
datetime cells it keeps the rows with `Timestamp >= cutoff`. -/
def filter_last_n_days (cutoff : ℤ) (l : List PyRow) : Except String (List PyRow) :=
  if l.isEmpty then Except.ok l
  else if l.any (fun r => r.tsIsStr) then Except.error pruneTypeError
  else Except.ok (l.filter fun r => decide (cutoff ≤ r.record.ts))

/-- The table a run persists when the prune step does not raise (all cells
datetime): merge, dedup, keep records with `Timestamp >= cutoff`.  Used to
state what completed runs write. -/
def reconcile (cutoff : ℤ) (history newRecs : List HistRec) : List HistRec :=
  (dedupHistory (history ++ newRecs)).filter fun r => decide (cutoff ≤ r.ts)

/-- Steps 5–7 of `main` on the real mixed-representation table: loaded
rows carry datetime cells, new rows carry string cells; merge (concat),
deduplicate per symbol by recency, then prune — which raises whenever a
string-stamped row survived deduplication. -/
def reconcilePy (cutoff : ℤ) (history newRecs : List HistRec) :
    Except String (List PyRow) :=
  filter_last_n_days cutoff
    (dedupPy (history.map (fun r => ⟨r, false⟩) ++ newRecs.map (fun r => ⟨r, true⟩)))

/-- Descending order on the signal column, used by
`sort_values("Signal", ascending=False)` when building the alerts list. -/
def sigGe (a b : HistRec) : Prop := pyLe b.signal a.signal

instance : DecidableRel sigGe := fun a b => inferInstanceAs (Decidable (pyLe b.signal a.signal))

/-- Step 9 of `main`: records of the reconciled table whose stored RSI is
strictly outside the `[OVERSOLD, OVERBOUGHT]` band, sorted by signal
descending. -/
def alertsOf (l : List HistRec) : List HistRec :=
  List.insertionSort sigGe
    (l.filter fun r => fgt (some r.rsi) OVERBOUGHT || flt (some r.rsi) OVERSOLD)

/-- `main` after symbol discovery: given the loaded history, the discovered
symbol list, the kline fetcher and the run time, return `Except.ok none`
when the symbol list is empty (early return, nothing written), propagate
the prune step's uncaught `TypeError` (the run dies before `save_history`
and before the alerts export), and otherwise return the pair (history CSV
contents, alerts CSV symbol column) that gets written. -/
def runMain (history : List HistRec) (symbols : List String)
    (fetch : String → List ℚ) (now : ℤ) :
    Except String (Option (List HistRec × List String)) :=
  if symbols.isEmpty then Except.ok none
  else
    let newRecs := scanSymbols now fetch symbols
    match reconcilePy (now - retentionMinutes) history newRecs with
    | Except.error e => Except.error e
    | Except.ok kept =>
        let updated := kept.map fun row => row.record
        Except.ok (some (updated, (alertsOf updated).map fun r => r.symbol))

/-- The kline fixture for the rounding-gap run: one +17501 move, one −7499
move, twelve flat candles; the resulting Wilder RSI is
`100·17501/25000 = 70.004`, strictly above the overbought threshold. -/
def closesC10 : List ℚ :=
  [10000, 27501, 20002, 20002, 20002, 20002, 20002, 20002, 20002, 20002,
    20002, 20002, 20002, 20002, 20002]

/-! ## Helper lemmas about the table operations -/

/-- Records surviving `dropDupAux` come from the input list. -/
theorem mem_dropDupAux {x : HistRec} :
    ∀ (l : List HistRec) (seen : List String), x ∈ dropDupAux seen l → x ∈ l := by
  intro l
  induction l with
  | nil => intro seen h; simp [dropDupAux] at h
  | cons r rs ih =>
      intro seen h
      by_cases hmem : r.symbol ∈ seen
      · simp only [dropDupAux, if_pos hmem] at h
        exact List.mem_cons_of_mem r (ih seen h)
      · simp only [dropDupAux, if_neg hmem, List.mem_cons] at h
        rcases h with h | h
        · exact h ▸ List.mem_cons_self r rs
        · exact List.mem_cons_of_mem r (ih _ h)

/-- `dropDupAux` keeps, for each symbol not yet seen, exactly the first
record carrying it. -/
theorem dropDupAux_filter (s : String) :
    ∀ (l : List HistRec) (seen : List String),
      (dropDupAux seen l).filter (fun r => r.symbol == s) =
        if s ∈ seen then [] else (l.filter (fun r => r.symbol == s)).take 1 := by
  intro l
  induction l with
  | nil => intro seen; simp [dropDupAux]
  | cons r rs ih =>
      intro seen
      by_cases hmem : r.symbol ∈ seen
      · rw [dropDupAux, if_pos hmem, ih seen]
        by_cases hseen : s ∈ seen
        · simp [hseen]
        · have hrs : ¬ r.symbol = s := fun h => hseen (h ▸ hmem)
          simp [hseen, List.filter_cons, hrs]
      · rw [dropDupAux, if_neg hmem]
        by_cases hrs : r.symbol = s
        · have hseen : ¬ s ∈ seen := fun h => hmem (hrs ▸ h)
          subst hrs
          have htail : (dropDupAux (r.symbol :: seen) rs).filter
              (fun x => x.symbol == r.symbol) = [] := by
            rw [ih (r.symbol :: seen)]
            simp
          simp [List.filter_cons, htail, hseen]
        · have hns : ¬ s ∈ r.symbol :: seen → ¬ s ∈ seen := by
            intro h hs
            exact h (List.mem_cons_of_mem _ hs)
          have htail := ih (r.symbol :: seen)
          by_cases hseen : s ∈ seen
          · have : s ∈ r.symbol :: seen := List.mem_cons_of_mem _ hseen
            simp only [List.filter_cons, show (r.symbol == s) = false by simpa using hrs,
              Bool.false_eq_true, if_false, htail]
            simp [this, hseen]
          · have hns2 : ¬ s ∈ r.symbol :: seen := by
              intro h
              rcases List.mem_cons.mp h with h | h
              · exact hrs h.symm
              · exact hseen h
            simp only [List.filter_cons, show (r.symbol == s) = false by simpa using hrs,
              Bool.false_eq_true, if_false, htail]
            simp [hns2, hseen]

/-- The descending sort is a permutation of its input. -/
theorem sortDesc_perm (l : List HistRec) : List.Perm (sortDesc l) l :=
  List.perm_insertionSort tsGe l

/-- The descending sort is sorted for `tsGe`. -/
theorem sortDesc_sorted (l : List HistRec) : List.Sorted tsGe (sortDesc l) :=
  List.sorted_insertionSort tsGe l

/-- Characterisation of the deduplication step on one symbol: it keeps the
first record of that symbol of the timestamp-sorted table. -/
theorem dedup_filter_eq (l : List HistRec) (s : String) :
    (dedupHistory l).filter (fun r => r.symbol == s) =
      ((sortDesc l).filter (fun r => r.symbol == s)).take 1 := by
  have h := dropDupAux_filter s (sortDesc l) []
  simpa [dedupHistory, dropDupBySymbol] using h

/-- Two-filter exchange on lists. -/
theorem filter_swap {α : Type} (p q : α → Bool) (l : List α) :
    (l.filter p).filter q = (l.filter q).filter p := by
  simp only [List.filter_filter]
  exact List.filter_congr fun a _ => Bool.and_comm (q a) (p a)

/-- Records surviving the deduplication step come from the input table. -/
theorem mem_dedupHistory {x : HistRec} {l : List HistRec} (h : x ∈ dedupHistory l) :
    x ∈ l :=
  (sortDesc_perm l).mem_iff.mp (mem_dropDupAux (sortDesc l) [] h)

/-- After deduplication a symbol present in the table has exactly one
record, and that record carries the maximal timestamp the symbol had. -/
theorem dedup_filter_max (l : List HistRec) (s : String)
    (hne : l.filter (fun r => r.symbol == s) ≠ []) :
    ∃ r0, (dedupHistory l).filter (fun r => r.symbol == s) = [r0] ∧ r0 ∈ l ∧
      r0.symbol = s ∧ ∀ r2 ∈ l, r2.symbol = s → r2.ts ≤ r0.ts := by
  have hperm : List.Perm ((sortDesc l).filter (fun r => r.symbol == s))
      (l.filter (fun r => r.symbol == s)) := (sortDesc_perm l).filter _
  have hFne : (sortDesc l).filter (fun r => r.symbol == s) ≠ [] := by
    intro h0
    exact hne (List.Perm.nil_eq (h0 ▸ hperm)).symm
  obtain ⟨f0, F2, hF⟩ := List.exists_cons_of_ne_nil hFne
  refine ⟨f0, ?_, ?_, ?_, ?_⟩
  · rw [dedup_filter_eq, hF]
    rfl
  · have : f0 ∈ (sortDesc l).filter (fun r => r.symbol == s) := by
      rw [hF]; exact List.mem_cons_self _ _
    exact (sortDesc_perm l).mem_iff.mp (List.mem_of_mem_filter this)
  · have : f0 ∈ (sortDesc l).filter (fun r => r.symbol == s) := by
      rw [hF]; exact List.mem_cons_self _ _
    simpa using List.of_mem_filter this
  · intro r2 hr2 hsym
    have hr2f : r2 ∈ (sortDesc l).filter (fun r => r.symbol == s) := by
      refine hperm.mem_iff.mpr (List.mem_filter.mpr ⟨hr2, ?_⟩)
      simpa using hsym
    have hsorted : List.Sorted tsGe ((sortDesc l).filter (fun r => r.symbol == s)) :=
      List.Pairwise.filter _ (sortDesc_sorted l)
    rw [hF] at hr2f hsorted
    rcases List.mem_cons.mp hr2f with h | h
    · exact le_of_eq (congrArg HistRec.ts h)
    · exact List.rel_of_sorted_cons hsorted r2 h

/-- The pruning step commutes past the per-symbol filter. -/
theorem reconcile_filter (cutoff : ℤ) (h new : List HistRec) (s : String) :
    (reconcile cutoff h new).filter (fun r => r.symbol == s) =
      ((dedupHistory (h ++ new)).filter (fun r => r.symbol == s)).filter
        (fun r => decide (cutoff ≤ r.ts)) := by
  rw [reconcile]
  exact filter_swap _ _ _

/-- Helper for two-element permutations. -/
theorem perm_pair_cases {x y a b : HistRec} (h : List.Perm [x, y] [a, b]) :
    (x = a ∧ y = b) ∨ (x = b ∧ y = a) := by
  have hx : x ∈ [a, b] := h.mem_iff.mp (List.mem_cons_self _ _)
  rcases List.mem_cons.mp hx with hxa | hxb
  · subst hxa
    have h2 : List.Perm [y] [b] := (List.perm_cons x).mp h
    have : y ∈ [b] := h2.mem_iff.mp (List.mem_cons_self _ _)
    left
    exact ⟨rfl, by simpa using this⟩
  · have hxb2 : x = b := by simpa using hxb
    subst hxb2
    have hswap : List.Perm [a, x] [x, a] := List.Perm.swap _ _ _
    have h2 : List.Perm [y] [a] := (List.perm_cons x).mp (h.trans hswap)
    have : y ∈ [a] := h2.mem_iff.mp (List.mem_cons_self _ _)
    right
    exact ⟨rfl, by simpa using this⟩

/-- After merge + dedup + prune, at most one record per symbol remains. -/
theorem reconcile_len_le_one (cutoff : ℤ) (h new : List HistRec) (s : String) :
    ((reconcile cutoff h new).filter (fun r => r.symbol == s)).length ≤ 1 := by
  rw [reconcile_filter]
  calc (((dedupHistory (h ++ new)).filter (fun r => r.symbol == s)).filter
          (fun r => decide (cutoff ≤ r.ts))).length
      ≤ ((dedupHistory (h ++ new)).filter (fun r => r.symbol == s)).length :=
        List.length_filter_le _ _
    _ ≤ 1 := by
        rw [dedup_filter_eq]
        exact le_trans (List.length_take_le 1 _) (le_refl 1)

/-- Every surviving record was observed (it is in the merged table) and is
the most recent observation of its symbol. -/
theorem reconcile_mem_max (cutoff : ℤ) (h new : List HistRec) {r : HistRec}
    (hr : r ∈ reconcile cutoff h new) :
    r ∈ h ++ new ∧ ∀ r2 ∈ h ++ new, r2.symbol = r.symbol → r2.ts ≤ r.ts := by
  have hrd : r ∈ dedupHistory (h ++ new) := List.mem_of_mem_filter hr
  have hrm : r ∈ h ++ new := mem_dedupHistory hrd
  refine ⟨hrm, ?_⟩
  have hne : (h ++ new).filter (fun x => x.symbol == r.symbol) ≠ [] := by
    have : r ∈ (h ++ new).filter (fun x => x.symbol == r.symbol) :=
      List.mem_filter.mpr ⟨hrm, by simp⟩
    exact List.ne_nil_of_mem this
  obtain ⟨r0, hr0eq, _, _, hr0max⟩ := dedup_filter_max (h ++ new) r.symbol hne
  have : r ∈ (dedupHistory (h ++ new)).filter (fun x => x.symbol == r.symbol) :=
    List.mem_filter.mpr ⟨hrd, by simp⟩
  rw [hr0eq] at this
  have hrr0 : r = r0 := by simpa using this
  subst hrr0
  exact hr0max

/-- Every surviving record's timestamp is at or after the cutoff. -/
theorem reconcile_ts_ge (cutoff : ℤ) (h new : List HistRec) {r : HistRec}
    (hr : r ∈ reconcile cutoff h new) : cutoff ≤ r.ts := by
  have := List.of_mem_filter hr
  simpa using this


/-- Projecting the record out of a tagged row commutes with ordered
insertion: both sides compare the same timestamps. -/
theorem map_rec_orderedInsert (a : PyRow) :
    ∀ l : List PyRow,
      (List.orderedInsert tsGeP a l).map (fun row => row.record) =
        List.orderedInsert tsGe a.record (l.map fun row => row.record) := by
  intro l
  induction l with
  | nil => rfl
  | cons b bs ih =>
      simp only [List.map_cons, List.orderedInsert]
      by_cases hab : b.record.ts ≤ a.record.ts
      · rw [if_pos (show tsGeP a b from hab), if_pos (show tsGe a.record b.record from hab)]
        rfl
      · rw [if_neg (show ¬ tsGeP a b from hab), if_neg (show ¬ tsGe a.record b.record from hab)]
        rw [List.map_cons, ih]

/-- Projection commutes with the descending sort of tagged rows. -/
theorem map_rec_sortDescP (l : List PyRow) :
    (sortDescP l).map (fun row => row.record) = sortDesc (l.map fun row => row.record) := by
  induction l with
  | nil => rfl
  | cons a l ih =>
      show (List.orderedInsert tsGeP a (sortDescP l)).map (fun row => row.record) =
        List.orderedInsert tsGe a.record (sortDesc (l.map fun row => row.record))
      rw [map_rec_orderedInsert, ih]

/-- Projection commutes with keep-first deduplication of tagged rows. -/
theorem map_rec_dropDupAuxP :
    ∀ (l : List PyRow) (seen : List String),
      (dropDupAuxP seen l).map (fun row => row.record) =
        dropDupAux seen (l.map fun row => row.record) := by
  intro l
  induction l with
  | nil => intro seen; rfl
  | cons r rs ih =>
      intro seen
      rw [List.map_cons, dropDupAuxP, dropDupAux]
      by_cases hmem : r.record.symbol ∈ seen
      · rw [if_pos hmem, if_pos hmem, ih]
      · rw [if_neg hmem, if_neg hmem, List.map_cons, ih]

/-- Projection commutes with the whole deduplication step. -/
theorem map_rec_dedupPy (l : List PyRow) :
    (dedupPy l).map (fun row => row.record) = dedupHistory (l.map fun row => row.record) := by
  rw [dedupPy, dedupHistory, dropDupBySymbol, map_rec_dropDupAuxP, map_rec_sortDescP]

/-- Projection commutes with the datetime-only pruning filter. -/
theorem map_rec_filter (cutoff : ℤ) :
    ∀ l : List PyRow,
      (l.filter fun row => decide (cutoff ≤ row.record.ts)).map (fun row => row.record) =
        (l.map fun row => row.record).filter fun r => decide (cutoff ≤ r.ts) := by
  intro l
  induction l with
  | nil => rfl
  | cons a l ih =>
      rw [List.map_cons, List.filter_cons, List.filter_cons]
      by_cases hc : cutoff ≤ a.record.ts <;> simp [hc, ih]

/-- Rows surviving tagged keep-first deduplication come from the input. -/
theorem mem_dropDupAuxP {x : PyRow} :
    ∀ (l : List PyRow) (seen : List String), x ∈ dropDupAuxP seen l → x ∈ l := by
  intro l
  induction l with
  | nil => intro seen h; simp [dropDupAuxP] at h
  | cons r rs ih =>
      intro seen h
      by_cases hmem : r.record.symbol ∈ seen
      · simp only [dropDupAuxP, if_pos hmem] at h
        exact List.mem_cons_of_mem r (ih seen h)
      · simp only [dropDupAuxP, if_neg hmem, List.mem_cons] at h
        rcases h with h | h
        · exact h ▸ List.mem_cons_self r rs
        · exact List.mem_cons_of_mem r (ih _ h)

/-- Rows surviving the tagged dedup step come from the merged table. -/
theorem mem_dedupPy {x : PyRow} {l : List PyRow} (h : x ∈ dedupPy l) : x ∈ l :=
  (List.perm_insertionSort tsGeP l).mem_iff.mp (mem_dropDupAuxP (sortDescP l) [] h)

/-- Deduplication of a nonempty table is nonempty. -/
theorem dedupPy_ne_nil {l : List PyRow} (h : l ≠ []) : dedupPy l ≠ [] := by
  have hs : sortDescP l ≠ [] := by
    intro h0
    have hp : List.Perm l (sortDescP l) :=
      (List.perm_insertionSort tsGeP l : List.Perm (sortDescP l) l).symm
    rw [h0] at hp
    exact h hp.eq_nil
  obtain ⟨a, as, ha⟩ := List.exists_cons_of_ne_nil hs
  rw [dedupPy, ha, dropDupAuxP, if_neg (List.not_mem_nil _)]
  exact List.cons_ne_nil _ _

/-- A prune that succeeds saw no string-stamped row: the kept rows all
carry datetime cells and come from the input table. -/
theorem filter_last_n_days_ok {cutoff : ℤ} {l kept : List PyRow}
    (h : filter_last_n_days cutoff l = Except.ok kept) :
    (∀ row ∈ kept, row.tsIsStr = false) ∧ ∀ row ∈ kept, row ∈ l := by
  rw [filter_last_n_days] at h
  by_cases he : l.isEmpty
  · rw [if_pos he] at h
    have hnil : l = [] := List.isEmpty_iff.mp he
    have hk : kept = [] := by
      rw [hnil] at h
      exact (Except.ok.inj h).symm
    subst hk
    exact ⟨fun row hrow => absurd hrow (List.not_mem_nil row),
      fun row hrow => absurd hrow (List.not_mem_nil row)⟩
  · rw [if_neg he] at h
    by_cases hany : l.any (fun r => r.tsIsStr) = true
    · rw [if_pos hany] at h
      exact absurd h (by simp)
    · rw [if_neg hany] at h
      have hk : kept = l.filter fun r => decide (cutoff ≤ r.record.ts) := (Except.ok.inj h).symm
      subst hk
      constructor
      · intro row hrow
        have hl : row ∈ l := List.mem_of_mem_filter hrow
        cases hstr : row.tsIsStr
        · rfl
        · exact absurd (List.any_eq_true.mpr ⟨row, hl, hstr⟩) hany
      · intro row hrow
        exact List.mem_of_mem_filter hrow

/-- Tagging records and projecting them back is the identity. -/
theorem map_record_tag (b : Bool) :
    ∀ l : List HistRec,
      (l.map (fun r => (⟨r, b⟩ : PyRow))).map (fun row => row.record) = l := by
  intro l
  induction l with
  | nil => rfl
  | cons a l ih =>
      rw [List.map_cons, List.map_cons, ih]

/-- The table a completed run computed, projected to records, is the pure
reconciliation result. -/
theorem reconcilePy_ok {cutoff : ℤ} {h new : List HistRec} {kept : List PyRow}
    (hok : reconcilePy cutoff h new = Except.ok kept) :
    kept.map (fun row => row.record) = reconcile cutoff h new := by
  rw [reconcilePy] at hok
  set merged := h.map (fun r => (⟨r, false⟩ : PyRow)) ++ new.map (fun r => ⟨r, true⟩) with hm
  have hmap : merged.map (fun row => row.record) = h ++ new := by
    rw [hm, List.map_append, map_record_tag, map_record_tag]
  rw [filter_last_n_days] at hok
  by_cases he : (dedupPy merged).isEmpty
  · rw [if_pos he] at hok
    have hmerged : merged = [] := by
      by_contra hne
      exact dedupPy_ne_nil hne (List.isEmpty_iff.mp he)
    have happ : h ++ new = [] := by
      have := congrArg (List.map fun row => row.record) hmerged
      rw [hmap] at this
      exact this
    have hh : h = [] := (List.append_eq_nil.mp happ).1
    have hn : new = [] := (List.append_eq_nil.mp happ).2
    have hk : kept = dedupPy merged := (Except.ok.inj hok).symm
    subst hk
    rw [hmerged]
    subst hh
    subst hn
    rfl
  · rw [if_neg he] at hok
    by_cases hany : (dedupPy merged).any (fun r => r.tsIsStr) = true
    · rw [if_pos hany] at hok
      exact absurd hok (by simp)
    · rw [if_neg hany] at hok
      have hk : kept = (dedupPy merged).filter fun r => decide (cutoff ≤ r.record.ts) :=
        (Except.ok.inj hok).symm
      subst hk
      rw [map_rec_filter, map_rec_dedupPy, hmap, reconcile]

/-- Rows a completed run keeps all come from the loaded history: a run
that kept a freshly-emitted (string-stamped) row would have raised. -/
theorem reconcilePy_ok_rows {cutoff : ℤ} {h new : List HistRec} {kept : List PyRow}
    (hok : reconcilePy cutoff h new = Except.ok kept) :
    ∀ row ∈ kept, row.tsIsStr = false ∧ row.record ∈ h := by
  rw [reconcilePy] at hok
  obtain ⟨hnostr, hsub⟩ := filter_last_n_days_ok hok
  intro row hrow
  refine ⟨hnostr row hrow, ?_⟩
  have hdedup := hsub row hrow
  have hmerged := mem_dedupPy hdedup
  rcases List.mem_append.mp hmerged with hh | hn
  · obtain ⟨x, hx, hxeq⟩ := List.mem_map.mp hh
    have hrec : row.record = x := by rw [← hxeq]
    rw [hrec]
    exact hx
  · obtain ⟨x, hx, hxeq⟩ := List.mem_map.mp hn
    have hflag : row.tsIsStr = true := by rw [← hxeq]
    rw [hnostr row hrow] at hflag
    exact absurd hflag (by simp)

/-! ## Claim theorems -/

/-- C1: after a completed run's reconciliation (merge, deduplicate, prune),
the persisted history table has at most one record per symbol, each kept
record is the most recently observed record of its symbol among the loaded
history and the run's new readings, and every kept record's timestamp is
within the 7-day retention window of the run time. -/
theorem c1_history_invariant (h : List HistRec) (symbols : List String)
    (fetch : String → List ℚ) (now : ℤ) (tbl : List HistRec) (alerts : List String)
    (hrun : runMain h symbols fetch now = Except.ok (some (tbl, alerts))) :
    (∀ s, (tbl.filter (fun r => r.symbol == s)).length ≤ 1) ∧
    (∀ r ∈ tbl, r ∈ h ++ scanSymbols now fetch symbols ∧
      ∀ r2 ∈ h ++ scanSymbols now fetch symbols, r2.symbol = r.symbol → r2.ts ≤ r.ts) ∧
    (∀ r ∈ tbl, now - retentionMinutes ≤ r.ts) := by
  simp only [runMain] at hrun
  by_cases he : symbols.isEmpty
  · rw [if_pos he] at hrun
    exact absurd hrun (by simp)
  · rw [if_neg he] at hrun
    cases hrec : reconcilePy (now - retentionMinutes) h (scanSymbols now fetch symbols) with
    | error e =>
        rw [hrec] at hrun
        exact absurd hrun (by simp)
    | ok kept =>
        rw [hrec] at hrun
        simp only [Except.ok.injEq, Option.some.injEq, Prod.mk.injEq] at hrun
        obtain ⟨htbl, _⟩ := hrun
        have hproj := reconcilePy_ok hrec
        rw [htbl] at hproj
        rw [hproj]
        refine ⟨fun s => reconcile_len_le_one _ _ _ s,
          fun r hr => reconcile_mem_max _ _ _ hr,
          fun r hr => reconcile_ts_ge _ _ _ hr⟩

/-- Witness for C1 on a concrete completing run: no reading is emitted (the
fetch returns no closes), so the loaded history record is deduplicated,
pruned and persisted. -/
theorem c1_history_invariant_witness :
    (([⟨"XUSDT", 75, "超买", -100⟩] : List HistRec).filter
      (fun r => r.symbol == "XUSDT")).length ≤ 1 :=
  (c1_history_invariant [⟨"XUSDT", 75, "超买", -100⟩] ["AUSDT"] (fun _ => []) 0
    [⟨"XUSDT", 75, "超买", -100⟩] ["XUSDT"]
    (by norm_num [runMain, scanSymbols, scanLoop, scanBody, scanOne, RSI_PERIOD,
      reconcilePy, filter_last_n_days, dedupPy, dropDupAuxP, sortDescP, retentionMinutes,
      DAYS_TO_KEEP, alertsOf, fgt, flt, OVERBOUGHT, OVERSOLD, List.filter, tsGeP, sigGe])).1
    "XUSDT"

/-- C2: if the combined table's records for a symbol are exactly a pair
with distinct timestamps, deduplication (sort by timestamp descending, keep
the first occurrence per symbol) leaves exactly the record with the later
timestamp. -/
theorem c2_dedup_keeps_later (l : List HistRec) (r1 r2 : HistRec)
    (hpair : List.Perm (l.filter (fun r => r.symbol == r1.symbol)) [r1, r2])
    (hlt : r1.ts < r2.ts) :
    (dedupHistory l).filter (fun r => r.symbol == r1.symbol) = [r2] := by
  have hperm : List.Perm ((sortDesc l).filter (fun r => r.symbol == r1.symbol))
      (l.filter (fun r => r.symbol == r1.symbol)) := (sortDesc_perm l).filter _
  have hF : List.Perm ((sortDesc l).filter (fun r => r.symbol == r1.symbol)) [r1, r2] :=
    hperm.trans hpair
  have hlen : ((sortDesc l).filter (fun r => r.symbol == r1.symbol)).length = 2 :=
    hF.length_eq
  obtain ⟨x, y, hxy⟩ := List.length_eq_two.mp hlen
  have hsorted : List.Sorted tsGe ((sortDesc l).filter (fun r => r.symbol == r1.symbol)) :=
    List.Pairwise.filter _ (sortDesc_sorted l)
  rw [hxy] at hF hsorted
  have hyx : y.ts ≤ x.ts := List.rel_of_sorted_cons hsorted y (List.mem_cons_self _ _)
  rcases perm_pair_cases hF with ⟨hx, hy⟩ | ⟨hx, hy⟩
  · subst hx; subst hy
    exact absurd hyx (not_le_of_lt hlt)
  · subst hx; subst hy
    rw [dedup_filter_eq, hxy]
    rfl

/-- Witness for C2 on a concrete pair of records for symbol `AUSDT` with
timestamps `1 < 2`. -/
theorem c2_dedup_keeps_later_witness :
    (dedupHistory [⟨"AUSDT", 75, "超买", 1⟩, ⟨"AUSDT", 80, "超买", 2⟩]).filter
      (fun r => r.symbol == "AUSDT") = [⟨"AUSDT", 80, "超买", 2⟩] :=
  c2_dedup_keeps_later [⟨"AUSDT", 75, "超买", 1⟩, ⟨"AUSDT", 80, "超买", 2⟩]
    ⟨"AUSDT", 75, "超买", 1⟩ ⟨"AUSDT", 80, "超买", 2⟩ (by simp) (by decide)

/-- C8: the reconciler never reaches an idempotence question on real
inputs — its very first application raises the prune step's uncaught
TypeError whenever a new reading is present and not shadowed by an even
newer loaded record of its symbol, because the new row's string timestamp
is compared against the `datetime` cutoff.  No table is produced at all,
so the spec's "unchanged after the second run" property does not hold of
the program. -/
theorem c8_reconcile_prune_raises (cutoff : ℤ) (history new : List HistRec) (r : HistRec)
    (hr : r ∈ new) (hshadow : ∀ hrec ∈ history, hrec.symbol = r.symbol → hrec.ts < r.ts) :
    reconcilePy cutoff history new = Except.error pruneTypeError := by
  rw [reconcilePy]
  set merged := history.map (fun x => (⟨x, false⟩ : PyRow)) ++ new.map (fun x => ⟨x, true⟩)
    with hm
  have hmap : merged.map (fun row => row.record) = history ++ new := by
    rw [hm, List.map_append, map_record_tag, map_record_tag]
  have hne : (history ++ new).filter (fun x => x.symbol == r.symbol) ≠ [] := by
    apply List.ne_nil_of_mem (a := r)
    exact List.mem_filter.mpr ⟨List.mem_append_right _ hr, by simp⟩
  obtain ⟨r0, hr0eq, hr0mem, hr0sym, hr0max⟩ := dedup_filter_max (history ++ new) r.symbol hne
  have hr0dedup : r0 ∈ (dedupPy merged).map (fun row => row.record) := by
    rw [map_rec_dedupPy, hmap]
    have : r0 ∈ (dedupHistory (history ++ new)).filter (fun x => x.symbol == r.symbol) := by
      rw [hr0eq]
      exact List.mem_cons_self _ _
    exact List.mem_of_mem_filter this
  obtain ⟨row0, hrow0mem, hrow0rec⟩ := List.mem_map.mp hr0dedup
  have hstr : row0.tsIsStr = true := by
    cases hflag : row0.tsIsStr
    · exfalso
      have hrow0merged : row0 ∈ merged := mem_dedupPy hrow0mem
      rcases List.mem_append.mp hrow0merged with hh | hn
      · obtain ⟨x, hx, hxeq⟩ := List.mem_map.mp hh
        have hxr0 : x = r0 := by
          rw [← hrow0rec, ← hxeq]
        have hlt := hshadow x hx (by rw [hxr0, hr0sym])
        have hge : r.ts ≤ x.ts := by
          rw [hxr0]
          exact hr0max r (List.mem_append_right _ hr) rfl
        exact absurd hlt (not_lt_of_le hge)
      · obtain ⟨x, hx, hxeq⟩ := List.mem_map.mp hn
        have hflag2 : row0.tsIsStr = true := by rw [← hxeq]
        rw [hflag] at hflag2
        exact Bool.false_ne_true hflag2
    · rfl
  have hnotempty : ¬ (dedupPy merged).isEmpty = true := by
    intro hempty
    rw [List.isEmpty_iff.mp hempty] at hrow0mem
    exact absurd hrow0mem (List.not_mem_nil row0)
  rw [filter_last_n_days, if_neg hnotempty,
    if_pos (List.any_eq_true.mpr ⟨row0, hrow0mem, hstr⟩)]

/-- Witness for C8: empty loaded history and a single fresh oversold
reading make the reconciler raise. -/
theorem c8_reconcile_prune_raises_witness :
    reconcilePy (0 - retentionMinutes) [] [⟨"AUSDT", 25, "超卖", 0⟩] =
      Except.error pruneTypeError :=
  c8_reconcile_prune_raises (0 - retentionMinutes) [] [⟨"AUSDT", 25, "超卖", 0⟩]
    ⟨"AUSDT", 25, "超卖", 0⟩ (by simp) (by simp)

/-- Closed form of the per-symbol loop body when the current RSI is a
defined (non-NaN) value and enough closes were fetched. -/
theorem scanOne_eq (now : ℤ) (s : String) (closes : List ℚ) (r : ℚ)
    (hcur : currentRSI RSI_PERIOD closes = some r)
    (hlen : RSI_PERIOD ≤ closes.length) :
    scanOne now s closes =
      if OVERBOUGHT < r then some ⟨s, roundTo2 r, "超买", now⟩
      else if r < OVERSOLD then some ⟨s, roundTo2 r, "超卖", now⟩
      else none := by
  rw [scanOne, if_neg (not_lt.mpr hlen)]
  simp only [hcur, fgt, flt, Option.getD_some]
  by_cases h1 : OVERBOUGHT < r
  · simp [h1]
  · by_cases h2 : r < OVERSOLD
    · simp [h1, h2]
    · simp [h1, h2]

/-- C3: for a sampled symbol with a defined current RSI value, a reading is
emitted iff the RSI is strictly above the overbought threshold 70 (signal
`超买`) or strictly below the oversold threshold 30 (signal `超卖`); for RSI
in the neutral band `[30, 70]` nothing is emitted. -/
theorem c3_threshold_classification (now : ℤ) (s : String) (closes : List ℚ) (r : ℚ)
    (hcur : currentRSI RSI_PERIOD closes = some r)
    (hlen : RSI_PERIOD ≤ closes.length) :
    ((∃ rec, scanOne now s closes = some rec) ↔ (OVERBOUGHT < r ∨ r < OVERSOLD)) ∧
    (OVERBOUGHT < r → scanOne now s closes = some ⟨s, roundTo2 r, "超买", now⟩) ∧
    (r < OVERSOLD → scanOne now s closes = some ⟨s, roundTo2 r, "超卖", now⟩) ∧
    (OVERSOLD ≤ r → r ≤ OVERBOUGHT → scanOne now s closes = none) := by
  rw [scanOne_eq now s closes r hcur hlen]
  refine ⟨?_, ?_, ?_, ?_⟩
  · constructor
    · intro hrec
      by_contra hnot
      push_neg at hnot
      obtain ⟨hn1, hn2⟩ := hnot
      rw [if_neg (not_lt.mpr hn1), if_neg (not_lt.mpr hn2)] at hrec
      exact absurd hrec.choose_spec (by simp)
    · intro hth
      rcases hth with h1 | h2
      · exact ⟨_, by rw [if_pos h1]⟩
      · by_cases h1 : OVERBOUGHT < r
        · exact ⟨_, by rw [if_pos h1]⟩
        · exact ⟨_, by rw [if_neg h1, if_pos h2]⟩
  · intro h1
    rw [if_pos h1]
  · intro h2
    by_cases h1 : OVERBOUGHT < r
    · exact absurd (lt_trans h2 (lt_trans (by norm_num [OVERSOLD, OVERBOUGHT]) h1)) (lt_irrefl r)
    · rw [if_neg h1, if_pos h2]
  · intro hge hle
    rw [if_neg (not_lt.mpr hle), if_neg (not_lt.mpr hge)]

/-- Witness for C3: strictly increasing closes of length 15 give a current
RSI of 100, which is classified overbought. -/
theorem c3_threshold_classification_witness :
    currentRSI RSI_PERIOD [1, 2, 3, 4, 5, 6, 7, 8, 9, 10, 11, 12, 13, 14, 15] = some 100 ∧
    scanOne 0 "BTCUSDT" [1, 2, 3, 4, 5, 6, 7, 8, 9, 10, 11, 12, 13, 14, 15] =
      some ⟨"BTCUSDT", roundTo2 100, "超买", 0⟩ := by
  have hcur : currentRSI RSI_PERIOD [1, 2, 3, 4, 5, 6, 7, 8, 9, 10, 11, 12, 13, 14, 15] =
      some 100 := by
    norm_num [currentRSI, talibRSI, RSI_PERIOD, sumGains, sumLosses, rsiVal, rsiSmooth,
      List.replicate, List.getLastD]
  exact ⟨hcur,
    (c3_threshold_classification 0 "BTCUSDT" _ 100 hcur (by norm_num [RSI_PERIOD])).2.1
      (by norm_num [OVERBOUGHT])⟩

/-- The last entry of a NaN-only RSI output is NaN. -/
theorem getLastD_replicate_none :
    ∀ n : Nat, (List.replicate n (none : Option ℚ)).getLastD none = none := by
  intro n
  induction n with
  | zero => rfl
  | succ n ih =>
      rw [List.replicate_succ, List.getLastD_cons]
      cases n with
      | zero => rfl
      | succ m =>
          rw [List.replicate_succ, List.getLastD_cons] at ih ⊢
          exact ih

/-- C9: whenever the computed current RSI is NaN, both strict threshold
comparisons are `false` and the symbol is skipped without a reading and
without an error; in particular with exactly `RSI_PERIOD` closes every
indicator output is still NaN. -/
theorem c9_nan_skip :
    (∀ (now : ℤ) (s : String) (closes : List ℚ),
      currentRSI RSI_PERIOD closes = none →
      fgt (currentRSI RSI_PERIOD closes) OVERBOUGHT = false ∧
      flt (currentRSI RSI_PERIOD closes) OVERSOLD = false ∧
      scanOne now s closes = none) ∧
    (∀ closes : List ℚ, closes.length = RSI_PERIOD →
      currentRSI RSI_PERIOD closes = none) := by
  constructor
  · intro now s closes hcur
    refine ⟨by rw [hcur]; rfl, by rw [hcur]; rfl, ?_⟩
    by_cases hg : closes.length < RSI_PERIOD
    · rw [scanOne, if_pos hg]
    · rw [scanOne, if_neg hg]
      simp only [hcur]
      rfl
  · intro closes hlen
    cases closes with
    | nil => simp [RSI_PERIOD] at hlen
    | cons c0 rest =>
        have hrest : rest.length < RSI_PERIOD := by
          rw [List.length_cons] at hlen
          omega
        rw [currentRSI, talibRSI, if_pos hrest]
        exact getLastD_replicate_none _

/-- Witness for C9: a flat series of exactly 14 closes is NaN-valued and
emits nothing. -/
theorem c9_nan_skip_witness :
    currentRSI RSI_PERIOD (List.replicate 14 1) = none ∧
    scanOne 0 "BTCUSDT" (List.replicate 14 1) = none := by
  have h2 := c9_nan_skip.2 (List.replicate 14 1) (by simp [RSI_PERIOD])
  exact ⟨h2, (c9_nan_skip.1 0 "BTCUSDT" (List.replicate 14 1) h2).2.2⟩

/-- C4: when symbol discovery fails (caught network/parse error, yielding
`[]`) or returns an empty list, the run returns before any file write: no
history rewrite, no export file. -/
theorem c4_empty_discovery_no_writes :
    (∀ (h : List HistRec) (fetch : String → List ℚ) (now : ℤ)
        (resp : Option (List SymbolInfo)),
      get_usdt_futures resp = [] →
      runMain h (get_usdt_futures resp) fetch now = Except.ok none) ∧
    get_usdt_futures none = [] := by
  refine ⟨?_, rfl⟩
  intro h fetch now resp hresp
  rw [hresp, runMain]
  rfl

/-- Witness for C4: the failure response yields no writes on a concrete
run. -/
theorem c4_empty_discovery_no_writes_witness :
    runMain [] (get_usdt_futures none) (fun _ => []) 0 = Except.ok none :=
  c4_empty_discovery_no_writes.1 [] (fun _ => []) 0 none
    c4_empty_discovery_no_writes.2

/-- C6: a symbol whose loop body raises (`except: continue`) or emits no
reading is skipped in isolation — the scan of the remaining symbols is
unchanged and the run is not aborted; a kline fetch failure (empty list) or
fewer than `RSI_PERIOD` closes puts the body in the no-reading case. -/
theorem c6_per_symbol_isolation :
    (∀ (body : String → Except String (Option HistRec)) (l1 l2 : List String) (s : String),
      ((∃ e, body s = Except.error e) ∨ body s = Except.ok none) →
      scanLoop body (l1 ++ s :: l2) = scanLoop body (l1 ++ l2)) ∧
    (∀ (now : ℤ) (fetch : String → List ℚ) (s : String),
      (fetch s).length < RSI_PERIOD → scanBody now fetch s = Except.ok none) := by
  constructor
  · intro body l1 l2 s hskip
    induction l1 with
    | nil =>
        show scanLoop body (s :: l2) = scanLoop body l2
        rcases hskip with ⟨e, he⟩ | hnone
        · rw [scanLoop, he]
        · rw [scanLoop, hnone]
    | cons a l1 ih =>
        show scanLoop body (a :: (l1 ++ s :: l2)) = scanLoop body (a :: (l1 ++ l2))
        rw [scanLoop, scanLoop]
        cases body a with
        | error e => exact ih
        | ok o =>
            cases o with
            | none => exact ih
            | some r => rw [ih]
  · intro now fetch s hshort
    rw [scanBody, scanOne, if_pos hshort]

/-- Witness for C6: symbol `BADUSDT` (failed fetch, empty closes) is
skipped while `AUSDT` and `CUSDT` are still processed. -/
theorem c6_per_symbol_isolation_witness :
    scanLoop (scanBody 0 (fun _ => [])) (["AUSDT"] ++ "BADUSDT" :: ["CUSDT"]) =
      scanLoop (scanBody 0 (fun _ => [])) (["AUSDT"] ++ ["CUSDT"]) ∧
    scanBody 0 (fun _ => []) "BADUSDT" = Except.ok none := by
  have hbody : scanBody 0 (fun _ => ([] : List ℚ)) "BADUSDT" = Except.ok none :=
    c6_per_symbol_isolation.2 0 (fun _ => []) "BADUSDT" (by simp [RSI_PERIOD])
  exact ⟨c6_per_symbol_isolation.1 (scanBody 0 (fun _ => [])) ["AUSDT"] ["CUSDT"] "BADUSDT"
    (Or.inr hbody), hbody⟩

/-- C7: an absent or unreadable/corrupt history file does yield the empty
table of schema `Symbol, RSI, Signal, Timestamp` (the `HistRec` row type),
and a run that emits no reading then completes; but "proceeds normally
rather than failing" is false of the program — a run that does emit a
reading (here: 15 rising closes, RSI 100) dies with the prune step's
uncaught TypeError before any write, independent of the load fallback. -/
theorem c7_load_history_fallback :
    load_history none = [] ∧
    (∀ e, load_history (some (Except.error e)) = []) ∧
    runMain (load_history none) ["AUSDT"] (fun _ => []) 0 = Except.ok (some ([], [])) ∧
    runMain (load_history none) ["AUSDT"]
      (fun _ => [1, 2, 3, 4, 5, 6, 7, 8, 9, 10, 11, 12, 13, 14, 15]) 0 =
      Except.error pruneTypeError := by
  refine ⟨rfl, fun e => rfl, ?_, ?_⟩
  · norm_num [runMain, load_history, scanSymbols, scanLoop, scanBody, scanOne, RSI_PERIOD,
      reconcilePy, filter_last_n_days, dedupPy, dropDupAuxP, sortDescP, retentionMinutes,
      DAYS_TO_KEEP, alertsOf, fgt, flt, OVERBOUGHT, OVERSOLD, List.filter, tsGeP, sigGe]
  · norm_num [runMain, load_history, scanSymbols, scanLoop, scanBody, scanOne, currentRSI,
      talibRSI, RSI_PERIOD, sumGains, sumLosses, rsiVal, rsiSmooth, fgt, flt, OVERBOUGHT,
      OVERSOLD, roundTo2, round_eq, List.replicate, List.getLastD, reconcilePy,
      filter_last_n_days, dedupPy, dropDupAuxP, sortDescP, retentionMinutes, DAYS_TO_KEEP,
      List.filter, tsGeP]

/-- C5 counterexample: a response listing the same TRADING `USDT` symbol
twice makes discovery return it twice — the output is not duplicate-free,
refuting the universally-quantified uniqueness part of the claim. -/
theorem c5_discovery_counterexample :
    get_usdt_futures (some [⟨"AUSDT", "TRADING"⟩, ⟨"AUSDT", "TRADING"⟩]) =
      ["AUSDT", "AUSDT"] ∧
    ¬ (get_usdt_futures (some [⟨"AUSDT", "TRADING"⟩, ⟨"AUSDT", "TRADING"⟩])).Nodup := by
  constructor
  · decide
  · decide

/-- C5 amended: discovery output contains only `USDT`-suffixed symbols whose
status in the response is `TRADING` and is sorted; it is duplicate-free
whenever the response lists each symbol name at most once (the code applies
`sorted` but never deduplicates). -/
theorem c5_discovery_sorted_filtered (resp : List SymbolInfo) :
    (∀ x ∈ get_usdt_futures (some resp),
      strEndsWith x "USDT" = true ∧
        ∃ info ∈ resp, info.symbol = x ∧ info.status = "TRADING") ∧
    List.Sorted pyLe (get_usdt_futures (some resp)) ∧
    ((resp.map fun i => i.symbol).Nodup → (get_usdt_futures (some resp)).Nodup) := by
  refine ⟨?_, ?_, ?_⟩
  · intro x hx
    simp only [get_usdt_futures] at hx
    have hx2 : x ∈ (resp.filter fun s =>
        strEndsWith s.symbol "USDT" && s.status == "TRADING").map (fun s => s.symbol) :=
      (List.perm_insertionSort pyLe _).mem_iff.mp hx
    obtain ⟨info, hinfo, hsym⟩ := List.mem_map.mp hx2
    obtain ⟨hmem, hp⟩ := List.mem_filter.mp hinfo
    rw [Bool.and_eq_true] at hp
    obtain ⟨hends, hstat⟩ := hp
    subst hsym
    exact ⟨hends, info, hmem, rfl, by simpa using hstat⟩
  · simp only [get_usdt_futures]
    exact List.sorted_insertionSort pyLe _
  · intro hnd
    simp only [get_usdt_futures]
    rw [List.Perm.nodup_iff (List.perm_insertionSort pyLe _)]
    exact List.Nodup.sublist (List.Sublist.map _ (List.filter_sublist resp)) hnd

/-- Witness for the amended C5 on a concrete duplicate-free response. -/
theorem c5_discovery_sorted_filtered_witness :
    (get_usdt_futures (some [⟨"BTCUSDT", "TRADING"⟩, ⟨"ETHUSDT", "TRADING"⟩])).Nodup :=
  (c5_discovery_sorted_filtered [⟨"BTCUSDT", "TRADING"⟩, ⟨"ETHUSDT", "TRADING"⟩]).2.2
    (by decide)

/-- C10 counterexample: at the claim's own exemplar input (raw RSI
`17501/250 = 70.004`, inside `(70, 70.005)`) the run raises the prune
step's TypeError before `save_history`, so the record is not persisted and
no alerts file is written — the claimed persisted-but-excluded outcome does
not occur. -/
theorem c10_persisted_counterexample :
    runMain [] ["AAAUSDT"] (fun _ => closesC10) 0 = Except.error pruneTypeError := by
  norm_num [runMain, scanSymbols, scanLoop, scanBody, scanOne, currentRSI, talibRSI,
    RSI_PERIOD, closesC10, sumGains, sumLosses, rsiVal, rsiSmooth, fgt, flt, OVERBOUGHT,
    OVERSOLD, roundTo2, round_eq, List.replicate, List.getLastD, reconcilePy,
    filter_last_n_days, dedupPy, dropDupAuxP, sortDescP, retentionMinutes, DAYS_TO_KEEP,
    List.filter, tsGeP]

/-- C10 amended: the RSI of an emitted reading is the raw value rounded to
two decimals, and the export filter re-applies the strict threshold
comparisons to stored values; but every record a completed run persists
comes from the loaded history — a run that emits a new reading raises
TypeError before saving, so a freshly-emitted rounded record is never
persisted and the persisted-but-excluded outcome is unreachable. -/
theorem c10_rounding_export_gap :
    (∀ (now : ℤ) (s : String) (closes : List ℚ) (r : ℚ) (rec : HistRec),
      currentRSI RSI_PERIOD closes = some r → scanOne now s closes = some rec →
      rec.rsi = roundTo2 r) ∧
    (∀ (l : List HistRec) (r : HistRec),
      r ∈ alertsOf l ↔ r ∈ l ∧ (OVERBOUGHT < r.rsi ∨ r.rsi < OVERSOLD)) ∧
    (∀ (h : List HistRec) (symbols : List String) (fetch : String → List ℚ) (now : ℤ)
        (tbl : List HistRec) (alerts : List String),
      runMain h symbols fetch now = Except.ok (some (tbl, alerts)) →
      ∀ r ∈ tbl, r ∈ h) := by
  refine ⟨?_, ?_, ?_⟩
  · intro now s closes r rec hcur hscan
    by_cases hg : closes.length < RSI_PERIOD
    · rw [scanOne, if_pos hg] at hscan
      exact absurd hscan (by simp)
    · rw [scanOne, if_neg hg] at hscan
      simp only [hcur, Option.getD_some] at hscan
      by_cases hcond : (fgt (some r) OVERBOUGHT || flt (some r) OVERSOLD) = true
      · rw [if_pos hcond] at hscan
        have h := Option.some.inj hscan
        rw [← h]
      · rw [if_neg hcond] at hscan
        exact absurd hscan (by simp)
  · intro l r
    rw [alertsOf, (List.perm_insertionSort sigGe _).mem_iff, List.mem_filter]
    simp [fgt, flt]
  · intro h symbols fetch now tbl alerts hrun r hrtbl
    simp only [runMain] at hrun
    by_cases he : symbols.isEmpty
    · rw [if_pos he] at hrun
      exact absurd hrun (by simp)
    · rw [if_neg he] at hrun
      cases hrec : reconcilePy (now - retentionMinutes) h (scanSymbols now fetch symbols) with
      | error e =>
          rw [hrec] at hrun
          exact absurd hrun (by simp)
      | ok kept =>
          rw [hrec] at hrun
          simp only [Except.ok.injEq, Option.some.injEq, Prod.mk.injEq] at hrun
          obtain ⟨htbl, _⟩ := hrun
          rw [← htbl] at hrtbl
          obtain ⟨row, hrow, hroweq⟩ := List.mem_map.mp hrtbl
          have hmem := (reconcilePy_ok_rows hrec row hrow).2
          rw [← hroweq]
          exact hmem

/-- Witness for C10: the stored RSI of the emitted record for raw RSI
`17501/250 = 70.004` equals the rounded value. -/
theorem c10_rounding_export_gap_witness :
    (⟨"AAAUSDT", (70 : ℚ), "超买", (0 : ℤ)⟩ : HistRec).rsi = roundTo2 (17501 / 250) :=
  c10_rounding_export_gap.1 0 "AAAUSDT" closesC10 (17501 / 250)
    ⟨"AAAUSDT", 70, "超买", 0⟩
    (by norm_num [currentRSI, talibRSI, RSI_PERIOD, closesC10, sumGains, sumLosses, rsiVal,
      rsiSmooth, List.replicate, List.getLastD])
    (by norm_num [scanOne, currentRSI, talibRSI, RSI_PERIOD, closesC10, sumGains, sumLosses,
      rsiVal, rsiSmooth, fgt, flt, OVERBOUGHT, OVERSOLD, roundTo2, round_eq, List.replicate,
      List.getLastD])
